import Mathlib

/-! Liquidation-RB: contract-state key decoding, address scan, coin extraction, ratio.

A shallow embedding of `src/liquidation/src/main.go`.

* Go `string` and `[]byte` values are byte sequences: `GoString = List Byte`.
* A run-time panic is an explicit outcome of the embedded function.
* Library routines the program calls (`HexBytes.String`, `strconv.ParseInt`,
  `sdkmath.Int`, `sdkmath.LegacyDec`) are embedded from their Go definitions;
  `encoding/json.Unmarshal` and `sdkmath.NewIntFromString` are parameters of the
  functions that call them.
-/

namespace LiquidationRB

/-! ## Bytes and strings -/

/-- One octet. -/
abbrev Byte := Fin 256

/-- Go `string` / `[]byte`: a sequence of octets. -/
abbrev GoString := List Byte

/-- The octets of an ASCII literal. -/
def ascii (s : String) : GoString := s.toList.map (fun c => Fin.ofNat c.toNat)

/-! ## `HexBytes.String` (tendermint/libs/bytes) -/

/-- Table of `encoding/hex`: `"0123456789abcdef"`. -/
def hextable : List Byte :=
  [48, 49, 50, 51, 52, 53, 54, 55, 56, 57, 97, 98, 99, 100, 101, 102]

/-- Go `hex.EncodeToString`: two table characters per octet, high nibble first. -/
def hexEncodeToString : List Byte → GoString
  | [] => []
  | b :: bs => hextable.getD (b.val / 16) 0 :: hextable.getD (b.val % 16) 0 :: hexEncodeToString bs

/-- Go `strings.ToUpper` on ASCII text. -/
def toUpper (s : GoString) : GoString :=
  s.map (fun c => if 97 ≤ c.val ∧ c.val ≤ 122 then Fin.ofNat (c.val - 32) else c)

/-- Go `func (bz HexBytes) String() string { return strings.ToUpper(hex.EncodeToString(bz)) }`. -/
def HexBytes.String (bz : List Byte) : GoString := toUpper (hexEncodeToString bz)

/-! ## `strconv.ParseInt(s, 16, 64)` -/

/-- The two error kinds of `strconv` (`ErrSyntax`, `ErrRange`). -/
inductive NumError
  | errSyntax
  | errRange
  deriving DecidableEq, Repr

/-- Go `lower(c) = c | ('x' - 'X')`. -/
def lower (c : Nat) : Nat := c ||| 32

/-- The `switch` of the digit loop of `strconv.ParseUint`: the value of the character `c`,
`none` for a character that is no digit or letter (underscores count only for base 0). -/
def digitOf (c : Byte) : Option Nat :=
  if 48 ≤ c.val ∧ c.val ≤ 57 then some (c.val - 48)
  else if 97 ≤ lower c.val ∧ lower c.val ≤ 122 then some (lower c.val - 97 + 10)
  else none

/-- Digit loop of `strconv.ParseUint(s, 16, 64)`; `n` is the `uint64` accumulator,
`cutoff = maxUint64/16 + 1`, `maxVal = 1<<64 - 1`. -/
def parseUintLoop : List Byte → Nat → Except NumError Nat
  | [], n => .ok n
  | c :: cs, n =>
    match digitOf c with
    | none => .error .errSyntax
    | some d =>
      if 16 ≤ d then .error .errSyntax
      else if (2 ^ 64 - 1) / 16 + 1 ≤ n then .error .errRange
      else if (n * 16 % 2 ^ 64 + d) % 2 ^ 64 < n * 16 % 2 ^ 64
          ∨ 2 ^ 64 - 1 < (n * 16 % 2 ^ 64 + d) % 2 ^ 64 then .error .errRange
      else parseUintLoop cs ((n * 16 % 2 ^ 64 + d) % 2 ^ 64)

/-- Go `strconv.ParseUint(s, 16, 64)`. -/
def ParseUint (s : GoString) : Except NumError Nat :=
  if s = [] then .error .errSyntax else parseUintLoop s 0

/-- Go `strconv.ParseInt(s, 16, 64)`: optional sign, unsigned digits, range check against
`cutoff = 1 << 63`. -/
def ParseInt (s : GoString) : Except NumError Int :=
  match s with
  | [] => .error .errSyntax
  | c :: cs =>
    let neg := decide (c.val = 45)
    let body := if c.val = 43 ∨ c.val = 45 then cs else c :: cs
    match ParseUint body with
    | .error e => .error e
    | .ok un =>
      if ¬ neg ∧ 2 ^ 63 ≤ un then .error .errRange
      else if neg ∧ 2 ^ 63 < un then .error .errRange
      else .ok (if neg then - (un : Int) else (un : Int))

/-! ## Slice expressions -/

/-- Go `s[lo:]`: panics (`none`) unless `0 ≤ lo ≤ len(s)`. -/
def sliceFrom (s : List Byte) (lo : Int) : Option (List Byte) :=
  if 0 ≤ lo ∧ lo ≤ (s.length : Int) then some (s.drop lo.toNat) else none

/-- Go `s[0:hi]`. Go checks `hi` against `cap(s)`; the capacity of a decoded key is not fixed
by the program, and the embedding takes `cap(s) = len(s)`. Where `hi` lies between `len(s)` and
`cap(s)` the statement that follows each such expression in `getAllAddresses` (`hexKey[2:]`,
`hexKey[length:]`) has its low bound above `len(s)` and panics, so the outcome is the same. -/
def sliceTo (s : List Byte) (hi : Int) : Option (List Byte) :=
  if 0 ≤ hi ∧ hi ≤ (s.length : Int) then some (s.take hi.toNat) else none

/-! ## Key decoding: the body of the first loop of `getAllAddresses` (lines 266-297) -/

/-- How one loop iteration over a raw key ends. -/
inductive KeyOutcome
  /-- The guard `len(hexKey) < 50` holds: `continue` at line 269. -/
  | tooShort
  /-- First `ParseInt` failed: `continue` at line 276. -/
  | mapNameParseError
  /-- Second `ParseInt` failed: `continue` at line 288. -/
  | addressParseError
  /-- A slice expression was out of range: run-time panic. -/
  | slicePanic
  /-- Line 297 reached with `identifier := string(address)`. -/
  | identifier (id : GoString)
  deriving DecidableEq, Repr

/-- Character that `HexBytes.String` emits for the nibble `d`. -/
def nibbleChar (d : Nat) : Byte :=
  if 97 ≤ (hextable.getD d 0).val ∧ (hextable.getD d 0).val ≤ 122 then
    Fin.ofNat ((hextable.getD d 0).val - 32)
  else hextable.getD d 0

/-- Two octets holding `n` in big-endian order. -/
def be16 (n : Nat) : List Byte := [Fin.ofNat (n / 256), Fin.ofNat (n % 256)]

/-- Outcome of decoding one key, with the log of strings handed to `strconv.ParseInt`. -/
structure KeyDecode where
  outcome : KeyOutcome
  parsed : List GoString
  deriving DecidableEq, Repr

/-- Lines 266-297 of `getAllAddresses`, for one `model.Key`. -/
def decodeKey (key : GoString) : KeyDecode :=
  if key.length < 50 then ⟨.tooShort, []⟩
  else
    match sliceTo key 2 with
    | none => ⟨.slicePanic, []⟩
    | some lengthIndicator =>
      match ParseInt (HexBytes.String lengthIndicator) with
      | .error _ => ⟨.mapNameParseError, [HexBytes.String lengthIndicator]⟩
      | .ok length =>
        match sliceFrom key 2 with
        | none => ⟨.slicePanic, [HexBytes.String lengthIndicator]⟩
        | some hexKey1 =>
          match sliceFrom hexKey1 length with
          | none => ⟨.slicePanic, [HexBytes.String lengthIndicator]⟩
          | some hexKey2 =>
            match sliceTo hexKey2 2 with
            | none => ⟨.slicePanic, [HexBytes.String lengthIndicator]⟩
            | some lengthIndicator2 =>
              match ParseInt (HexBytes.String lengthIndicator2) with
              | .error _ =>
                ⟨.addressParseError,
                  [HexBytes.String lengthIndicator, HexBytes.String lengthIndicator2]⟩
              | .ok length2 =>
                match sliceFrom hexKey2 2 with
                | none =>
                  ⟨.slicePanic,
                    [HexBytes.String lengthIndicator, HexBytes.String lengthIndicator2]⟩
                | some hexKey3 =>
                  match sliceTo hexKey3 length2, sliceFrom hexKey3 length2 with
                  | some address, some _ =>
                    ⟨.identifier address,
                      [HexBytes.String lengthIndicator, HexBytes.String lengthIndicator2]⟩
                  | _, _ =>
                    ⟨.slicePanic,
                      [HexBytes.String lengthIndicator, HexBytes.String lengthIndicator2]⟩

/-! ## The scan of `getAllAddresses` -/

/-- Run-time panics of the program. -/
inductive GoPanic
  /-- Slice bounds out of range. -/
  | sliceBounds
  /-- The "Int overflow" panic of `sdkmath`. -/
  | intOverflow
  /-- Division by zero in `big.Int.Quo`. -/
  | divisionByZero
  deriving DecidableEq, Repr

/-- A Go `error` value (its message). -/
abbrev GoError := String

deriving instance DecidableEq for Except

/-- Go `type Model struct { Key HexBytes; Value []byte }`. -/
structure Model where
  Key : GoString
  Value : GoString
  deriving DecidableEq, Repr

/-- Lines 299-304: `accounts[identifier] = HealthCheckWorkItem{Identifier: identifier}` unless the
key is present. The map `accounts` is kept as the list of its keys in order of first insertion;
the work item stored under a key holds that key and nothing else. -/
def insertAccount (accounts : List GoString) (identifier : GoString) : List GoString :=
  if identifier ∈ accounts then accounts else accounts ++ [identifier]

/-- First loop of `getAllAddresses` (lines 262-305) from the state `(accounts, totalScanned)`.
The `int64` counter `totalScanned` is a natural number here: one increment per entry of a list
held in memory cannot wrap it. -/
def scanModels : List Model → List GoString → Nat → Except GoPanic (List GoString × Nat)
  | [], accounts, totalScanned => .ok (accounts, totalScanned)
  | model :: rest, accounts, totalScanned =>
    match (decodeKey model.Key).outcome with
    | .tooShort => scanModels rest accounts (totalScanned + 1)
    | .mapNameParseError => scanModels rest accounts (totalScanned + 1)
    | .addressParseError => scanModels rest accounts (totalScanned + 1)
    | .slicePanic => .error .sliceBounds
    | .identifier identifier =>
      scanModels rest (insertAccount accounts identifier) (totalScanned + 1)

/-- The identifier that the decoding step recovers from the key of `model`, if it recovers
one. -/
def decodedIdentifier (model : Model) : Option GoString :=
  match (decodeKey model.Key).outcome with
  | .identifier identifier => some identifier
  | _ => none

/-- The identifiers decoded from the keys of a state dump, in dump order, with repetitions. -/
def decodedIdentifiers (models : List Model) : List GoString := models.filterMap decodedIdentifier

/-- Go `var data struct { Addr string }`, the package-level variable. -/
structure Data where
  Addr : GoString
  deriving DecidableEq, Repr

/-- Behaviour of `json.Unmarshal([]byte(identifier), &data)`: from the input text and the current
content of `data` to an error or the new content of `data`. -/
abbrev Unmarshal := GoString → Data → Except GoError Data

/-- Second loop of `getAllAddresses` (lines 307-316) over the work items in the order `range`
visits them, from the state `(data, results)`. -/
def collectLoop (unmarshal : Unmarshal) :
    List GoString → Data → List GoString → List GoString × Option GoError
  | [], _, results => (results, none)
  | identifier :: rest, data, results =>
    match unmarshal identifier data with
    | .error err => (results, some err)
    | .ok data1 => collectLoop unmarshal rest data1 (results ++ [data1.Addr])

/-- Go `getAllAddresses`, returning `(results, totalScanned, err)` or panicking.
`query` is what `NewRPCClient`, `proto.Marshal`, `ABCIQuery` and `proto.Unmarshal` deliver: an
error (returned at once, lines 232-258) or the models of the state response. `rangeOrder` is the
order in which `range accounts` visits the keys of the map, which Go leaves unspecified.
`data` is the content of the package-level variable on entry. -/
def getAllAddresses (unmarshal : Unmarshal) (rangeOrder : List GoString → List GoString)
    (query : Except GoError (List Model)) (data : Data) :
    Except GoPanic (List GoString × Nat × Option GoError) :=
  match query with
  | .error err => .ok ([], 0, some err)
  | .ok models =>
    match scanModels models [] 0 with
    | .error p => .error p
    | .ok (accounts, totalScanned) =>
      .ok ((collectLoop unmarshal (rangeOrder accounts) data []).1, totalScanned,
        (collectLoop unmarshal (rangeOrder accounts) data []).2)

/-! ## `json.Unmarshal` into `data` on flat objects of strings -/

/-- JSON white space. -/
def isSpace (c : Byte) : Bool := c.val = 32 || c.val = 9 || c.val = 10 || c.val = 13

/-- Drop leading JSON white space. -/
def skipSpace : GoString → GoString
  | [] => []
  | c :: cs => if isSpace c then skipSpace cs else c :: cs

/-- Read the characters of a string literal after its opening quote, up to the closing quote.
Only printable ASCII other than the quote and the backslash is read. -/
def readPlain : GoString → GoString → Option (GoString × GoString)
  | [], _ => none
  | c :: cs, acc =>
    if c.val = 34 then some (acc, cs)
    else if c.val = 92 ∨ c.val < 32 ∨ 126 < c.val then none
    else readPlain cs (acc ++ [c])

/-- Read `"..."`. -/
def readString : GoString → Option (GoString × GoString)
  | [] => none
  | c :: cs => if c.val = 34 then readPlain cs [] else none

/-- Read the members `"key" : "value"` of an object after its opening brace, separated by
commas, up to the closing brace; `fuel` bounds the number of members. -/
def readMembers : Nat → GoString → List (GoString × GoString) →
    Option (List (GoString × GoString) × GoString)
  | 0, _, _ => none
  | fuel + 1, input, acc =>
    match readString (skipSpace input) with
    | none => none
    | some (key, r1) =>
      match skipSpace r1 with
      | [] => none
      | c :: r2 =>
        if c.val ≠ 58 then none
        else
          match readString (skipSpace r2) with
          | none => none
          | some (value, r3) =>
            match skipSpace r3 with
            | [] => none
            | d :: r4 =>
              if d.val = 125 then some (acc ++ [(key, value)], r4)
              else if d.val = 44 then readMembers fuel r4 (acc ++ [(key, value)])
              else none

/-- Read a whole text `{ "k" : "v", ... }` with nothing but white space around it. -/
def readFlatObject (input : GoString) : Option (List (GoString × GoString)) :=
  match skipSpace input with
  | [] => none
  | c :: r =>
    if c.val ≠ 123 then none
    else
      match skipSpace r with
      | [] => none
      | d :: r1 =>
        if d.val = 125 then (if skipSpace r1 = [] then some [] else none)
        else
          match readMembers input.length (d :: r1) [] with
          | none => none
          | some (members, r2) => if skipSpace r2 = [] then some members else none

/-- ASCII lower case of one octet. -/
def foldByte (c : Byte) : Byte := if 65 ≤ c.val ∧ c.val ≤ 90 then Fin.ofNat (c.val + 32) else c

/-- Store the members into `data`: a key equal to `addr`, or equal to it when letter case is
ignored, sets `Addr`; any other key is skipped. -/
def storeMembers : List (GoString × GoString) → Data → Data
  | [], data => data
  | (key, value) :: rest, data =>
    if key.map foldByte = ascii "addr" then storeMembers rest ⟨value⟩ else storeMembers rest data

/-- Go `json.Unmarshal(text, &data)` for texts that are one object whose members are all strings
of printable ASCII without escapes: members are decoded in order, fields not named keep their
value. A text of any other shape is answered with an error here; no statement below depends on
that answer. -/
def unmarshalFlat : Unmarshal := fun text data =>
  match readFlatObject text with
  | some members => .ok (storeMembers members data)
  | none => .error "text outside the flat objects of strings"

/-! ## Coin extraction of `userPosition` -/

/-- Go `type Coin struct { Amount sdkmath.Int; Denom string }`. -/
structure Coin where
  Amount : Int
  Denom : GoString
  deriving DecidableEq, Repr

/-- Values that `encoding/json` stores into an `interface{}`: `nil`, `bool`, `float64` (kept as
its bit pattern), `string`, `[]interface{}`, `map[string]interface{}` (kept as an association
list, read with `mapIndex`). -/
inductive JSONValue
  | null
  | bool (b : Bool)
  | number (bits : Nat)
  | string (s : GoString)
  | array (items : List JSONValue)
  | object (fields : List (GoString × JSONValue))

/-- Go map index `m[key]`: the value stored under `key`, `none` for an absent key. -/
def mapIndex (m : List (GoString × JSONValue)) (key : GoString) : Option JSONValue :=
  match m with
  | [] => none
  | (k, v) :: rest => if k = key then some v else mapIndex rest key

/-- Loop of `userPosition` (lines 205-221) from the state `coin`; `newIntFromString` is
`sdkmath.NewIntFromString`, `none` standing for `ok == false`. -/
def coinLoop (newIntFromString : GoString → Option Int) : List JSONValue → List Coin → List Coin
  | [], coin => coin
  | item :: rest, coin =>
    match item with
    | .object dataItem =>
      match mapIndex dataItem (ascii "amount") with
      | some (.string amountStr) =>
        match mapIndex dataItem (ascii "denom") with
        | some (.string denomStr) =>
          match newIntFromString amountStr with
          | some amount => coinLoop newIntFromString rest (coin ++ [⟨amount, denomStr⟩])
          | none => coinLoop newIntFromString rest coin
        | _ => coinLoop newIntFromString rest coin
      | _ => coinLoop newIntFromString rest coin
    | _ => coinLoop newIntFromString rest coin

/-- Go `userPosition` from the point where the response is in hand, returning `(coin, err)`.
`fetched` is what `http.Get` and `json.NewDecoder(...).Decode(&body)` deliver: an error (lines
190-202, returned with a nil slice) or the decoded `body`. -/
def userPosition (newIntFromString : GoString → Option Int)
    (fetched : Except GoError (List (GoString × JSONValue))) : List Coin × Option GoError :=
  match fetched with
  | .error err => ([], some err)
  | .ok body =>
    match mapIndex body (ascii "data") with
    | some (.array data) => (coinLoop newIntFromString data [], none)
    | _ => ([], none)

/-- The coin of a list entry that is an object with a string `amount` that parses as an
integer and a string `denom`; `none` for every other entry. -/
def entryCoin (newIntFromString : GoString → Option Int) (item : JSONValue) : Option Coin :=
  match item with
  | .object fields =>
    match mapIndex fields (ascii "amount"), mapIndex fields (ascii "denom") with
    | some (.string amountStr), some (.string denomStr) =>
      (newIntFromString amountStr).map (fun amount => ⟨amount, denomStr⟩)
    | _, _ => none
  | _ => none

/-- A stand-in for `sdkmath.NewIntFromString` on the texts where it reads plain decimal digits:
the value of a non-empty run of digits without a leading zero, `none` for any other text. -/
def decimalInt (s : GoString) : Option Int :=
  match s with
  | [] => none
  | c :: cs =>
    if c.val = 48 ∧ cs ≠ [] then none
    else if (c :: cs).all (fun b => decide (48 ≤ b.val ∧ b.val ≤ 57)) then
      some (((c :: cs).foldl (fun acc b => acc * 10 + (b.val - 48)) 0 : Nat) : Int)
    else none

/-- A decoded response with three entries, the second without `amount`. -/
def sampleEntries : List JSONValue :=
  [.object [(ascii "amount", .string (ascii "100")), (ascii "denom", .string (ascii "uosmo"))],
   .object [(ascii "denom", .string (ascii "uatom"))],
   .object [(ascii "amount", .string (ascii "7")), (ascii "denom", .string (ascii "uusdc"))]]

/-! ## `sdkmath.Int` and `sdkmath.LegacyDec` -/

namespace sdkmath

/-- Bits of a natural number, by halving; `fuel` bounds the number of halvings. -/
def bitLenNat : Nat → Nat → Nat
  | 0, _ => 0
  | fuel + 1, n => if n = 0 then 0 else bitLenNat fuel (n / 2) + 1

/-- Go `(*big.Int).BitLen`: the length of the absolute value in bits, 0 for 0. -/
def BitLen (x : Int) : Nat := bitLenNat x.natAbs x.natAbs

/-- Go `const MaxBitLen = 256`. -/
def MaxBitLen : Nat := 256

/-- Go `func (i Int) Add(i2 Int) Int`: panics when the sum needs more than `MaxBitLen` bits. -/
def Add (i i2 : Int) : Except GoPanic Int :=
  if MaxBitLen < BitLen (i + i2) then .error .intOverflow else .ok (i + i2)

/-- Go `func (i Int) Mul(i2 Int) Int`: the operand check, then the check of the product. -/
def Mul (i i2 : Int) : Except GoPanic Int :=
  if MaxBitLen < BitLen i + BitLen i2 - 1 then .error .intOverflow
  else if MaxBitLen < BitLen (i * i2) then .error .intOverflow
  else .ok (i * i2)

/-- Go `LegacyDec`: the `big.Int` holding the value times `10^18`. -/
structure LegacyDec where
  i : Int
  deriving DecidableEq, Repr

/-- Go `LegacyPrecision = 18`: the multiplier `10^18`. -/
def precisionReuse : Int := 10 ^ 18

/-- Go `fivePrecision = precisionReuse / 2`. -/
def fivePrecision : Int := 5 * 10 ^ 17

/-- Go `LegacyDecimalPrecisionBits = 60`, the bits needed for `10^18 - 1`. -/
def LegacyDecimalPrecisionBits : Nat := 60

/-- Go `decimalTruncateBits = LegacyDecimalPrecisionBits - 1`. -/
def decimalTruncateBits : Nat := LegacyDecimalPrecisionBits - 1

/-- Go `maxDecBitLen = MaxBitLen + decimalTruncateBits`, that is 315. -/
def maxDecBitLen : Nat := MaxBitLen + decimalTruncateBits

/-- Go `LegacyNewDec(i int64)`. -/
def LegacyNewDec (i : Int) : LegacyDec := ⟨i * precisionReuse⟩

/-- Go `LegacyNewDecFromInt(i Int)`. -/
def LegacyNewDecFromInt (i : Int) : LegacyDec := ⟨i * precisionReuse⟩

/-- Go `chopPrecisionAndRound` on a non-negative argument: truncated quotient by `10^18`,
rounded half to even on the remainder. -/
def chopNonneg (d : Int) : Int :=
  if d.tmod precisionReuse = 0 then d.tdiv precisionReuse
  else if d.tmod precisionReuse < fivePrecision then d.tdiv precisionReuse
  else if fivePrecision < d.tmod precisionReuse then d.tdiv precisionReuse + 1
  else if d.tdiv precisionReuse % 2 = 0 then d.tdiv precisionReuse
  else d.tdiv precisionReuse + 1

/-- Go `chopPrecisionAndRound`: a negative argument is negated, chopped and negated back. -/
def chopPrecisionAndRound (d : Int) : Int :=
  if d < 0 then - chopNonneg (- d) else chopNonneg d

/-- Go `func (d LegacyDec) Quo(d2 LegacyDec) LegacyDec`: multiply by the precision twice,
`big.Int.Quo` (truncated, panics on a zero divisor), chop and round, check the bit length. -/
def LegacyDec.Quo (d d2 : LegacyDec) : Except GoPanic LegacyDec :=
  if d2.i = 0 then .error .divisionByZero
  else if maxDecBitLen < BitLen
      (chopPrecisionAndRound ((d.i * (precisionReuse * precisionReuse)).tdiv d2.i)) then
    .error .intOverflow
  else .ok ⟨chopPrecisionAndRound ((d.i * (precisionReuse * precisionReuse)).tdiv d2.i)⟩

end sdkmath

/-! ## Ratio calculator and its caller -/

/-- Go `getPrice`: `sdkmath.NewInt(1)` for every denomination. -/
def getPrice (_denom : GoString) : Int := 1

/-- Either accumulating loop of `calculateCollateralizationRatio` (lines 105-109, 113-116)
from the running total `total`. -/
def totalLoop : List Coin → Int → Except GoPanic Int
  | [], total => .ok total
  | coin :: rest, total =>
    match sdkmath.Mul coin.Amount (getPrice coin.Denom) with
    | .error p => .error p
    | .ok priced =>
      match sdkmath.Add total priced with
      | .error p => .error p
      | .ok total1 => totalLoop rest total1

/-- The priced total of a coin list: the sum of amount times price. -/
def pricedTotal (coins : List Coin) : Int :=
  (coins.map (fun coin => coin.Amount * getPrice coin.Denom)).sum

/-- Every amount of the list, and every running total from `total` on, lies within the 256
bits of `sdkmath.Int`. -/
def withinRange : List Coin → Int → Bool
  | [], _ => true
  | coin :: rest, total =>
    decide (coin.Amount.natAbs < 2 ^ 256) &&
    decide ((total + coin.Amount * getPrice coin.Denom).natAbs < 2 ^ 256) &&
    withinRange rest (total + coin.Amount * getPrice coin.Denom)

/-- Value returned by `calculateCollateralizationRatio`, with the number of `Quo` calls made. -/
structure RatioRun where
  ratio : sdkmath.LegacyDec
  quoCalls : Nat
  deriving DecidableEq, Repr

/-- Go `calculateCollateralizationRatio`. -/
def calculateCollateralizationRatio (debtCoins collateralCoins : List Coin) :
    Except GoPanic RatioRun :=
  match totalLoop debtCoins 0 with
  | .error p => .error p
  | .ok totalDebt =>
    match totalLoop collateralCoins 0 with
    | .error p => .error p
    | .ok totalCollateral =>
      if totalDebt = 0 then .ok ⟨sdkmath.LegacyNewDec 0, 0⟩
      else
        match (sdkmath.LegacyNewDecFromInt totalCollateral).Quo
            (sdkmath.LegacyNewDecFromInt totalDebt) with
        | .error p => .error p
        | .ok collateralizationRatio =>
          match collateralizationRatio.Quo (sdkmath.LegacyNewDec 100) with
          | .error p => .error p
          | .ok r => .ok ⟨r, 2⟩

/-- What `main` prints about the ratio of one address. -/
inductive RatioLine
  /-- The line "Collateralization Ratio N/A as zero debt". -/
  | notApplicable
  /-- The line "Collateralization Ratio: " followed by the value. -/
  | ratio (r : sdkmath.LegacyDec)
  deriving DecidableEq, Repr

/-- Lines 88-94 of `main`, for the coin lists of one address. -/
def mainRatioLine (debtCoins collateralCoins : List Coin) : Except GoPanic RatioLine :=
  match calculateCollateralizationRatio debtCoins collateralCoins with
  | .error p => .error p
  | .ok run => if debtCoins.length = 0 then .ok .notApplicable else .ok (.ratio run.ratio)

/-! ## Sample state dumps -/

/-- A map key of the contract: the map name "debts", the identifier, and 30 further octets. -/
def debtsKey (identifier : GoString) (fill : Byte) : GoString :=
  be16 5 ++ ascii "debts" ++ be16 identifier.length ++ identifier ++ List.replicate 30 fill

/-- Two entries whose identifiers differ by one blank and name the same address. -/
def sameAddressDump : List Model :=
  [⟨debtsKey (ascii "\x7b\"addr\":\"a\"\x7d") 0, []⟩,
   ⟨debtsKey (ascii "\x7b\"addr\": \"a\"\x7d") 0, []⟩]

/-- Two entries with identifiers for two addresses. -/
def twoAddressDump : List Model :=
  [⟨debtsKey (ascii "\x7b\"addr\":\"a\"\x7d") 0, []⟩,
   ⟨debtsKey (ascii "\x7b\"addr\":\"b\"\x7d") 0, []⟩]

/-- Two keys with the same identifier followed by one key too short to be a map key. -/
def scriptedDump : List Model :=
  [⟨debtsKey (ascii "\x7b\"addr\":\"a\"\x7d") 1, []⟩,
   ⟨debtsKey (ascii "\x7b\"addr\":\"a\"\x7d") 2, []⟩,
   ⟨ascii "config", []⟩]

/-- The address that `unmarshalFlat` stores for an identifier, from an empty `data`. -/
def flatAddr (identifier : GoString) : GoString :=
  match unmarshalFlat identifier ⟨[]⟩ with
  | .ok data => data.Addr
  | .error _ => []

/-! # Theorems -/

/-! ## Hexadecimal length indicators -/

theorem HexBytes_String_pair (h l : Byte) :
    HexBytes.String [h, l] =
      [nibbleChar (h.val / 16), nibbleChar (h.val % 16),
       nibbleChar (l.val / 16), nibbleChar (l.val % 16)] := by
  simp [HexBytes.String, hexEncodeToString, toUpper, nibbleChar]

theorem digitOf_nibbleChar (d : Nat) (hd : d < 16) : digitOf (nibbleChar d) = some d := by
  interval_cases d <;> rfl

theorem nibbleChar_not_sign (d : Nat) (hd : d < 16) :
    (nibbleChar d).val ≠ 43 ∧ (nibbleChar d).val ≠ 45 := by
  interval_cases d <;> decide

theorem parseUintLoop_nibble (d : Nat) (hd : d < 16) (cs : List Byte) (n : Nat)
    (hn : n < 2 ^ 59) :
    parseUintLoop (nibbleChar d :: cs) n = parseUintLoop cs (n * 16 + d) := by
  have h1 : ¬ ((2 ^ 64 - 1) / 16 + 1 ≤ n) := by norm_num; omega
  have h2 : (n * 16) % 2 ^ 64 = n * 16 := Nat.mod_eq_of_lt (by omega)
  have h3 : (n * 16 + d) % 2 ^ 64 = n * 16 + d := Nat.mod_eq_of_lt (by omega)
  have h4 : ¬ (n * 16 + d < n * 16 ∨ 2 ^ 64 - 1 < n * 16 + d) := by omega
  rw [parseUintLoop, digitOf_nibbleChar d hd]
  simp only [h2, h3]
  rw [if_neg (by omega), if_neg h1, if_neg h4]

/-- The hex rendering of two octets parses to their big-endian value. -/
theorem ParseInt_hex_pair (h l : Byte) :
    ParseInt (HexBytes.String [h, l]) = .ok ((256 * h.val + l.val : Nat) : Int) := by
  have hh := h.isLt
  have hl := l.isLt
  have e : ParseUint (HexBytes.String [h, l]) = .ok (256 * h.val + l.val) := by
    rw [HexBytes_String_pair, ParseUint, if_neg (by simp)]
    rw [parseUintLoop_nibble _ (by omega) _ _ (by norm_num),
      parseUintLoop_nibble _ (Nat.mod_lt _ (by norm_num)) _ _ (by omega),
      parseUintLoop_nibble _ (by omega) _ _ (by omega),
      parseUintLoop_nibble _ (Nat.mod_lt _ (by norm_num)) _ _ (by omega)]
    simp only [parseUintLoop]
    congr 1
    omega
  have hs := nibbleChar_not_sign (h.val / 16) (by omega)
  rw [HexBytes_String_pair] at e ⊢
  simp only [ParseInt, hs.1, hs.2, or_self, if_false, e, decide_False, Bool.false_eq_true,
    false_and, not_false_eq_true, true_and]
  rw [if_neg (by omega)]

/-! ## Slice expressions on lists -/

theorem sliceTo_two (a b : Byte) (t : List Byte) : sliceTo (a :: b :: t) 2 = some [a, b] := by
  simp [sliceTo]
  omega

theorem sliceFrom_two (a b : Byte) (t : List Byte) : sliceFrom (a :: b :: t) 2 = some t := by
  simp [sliceFrom]
  omega

theorem sliceFrom_length_append (xs ys : List Byte) :
    sliceFrom (xs ++ ys) ((xs.length : Nat) : Int) = some ys := by
  simp [sliceFrom]

theorem sliceTo_length_append (xs ys : List Byte) :
    sliceTo (xs ++ ys) ((xs.length : Nat) : Int) = some xs := by
  simp [sliceTo]

theorem sliceTo_two_eq_some (s li : List Byte) (h : sliceTo s 2 = some li) :
    ∃ a b t, s = a :: b :: t ∧ li = [a, b] := by
  match s, h with
  | [], h => simp [sliceTo] at h
  | [_], h => simp [sliceTo] at h
  | a :: b :: t, h =>
    rw [sliceTo_two] at h
    exact ⟨a, b, t, rfl, (Option.some.inj h).symm⟩

/-! ## Decoding a composite key -/

/-- Decoding of a key laid out with two-octet big-endian length indicators. -/
theorem decodeKey_layout (h1 l1 h2 l2 : Byte) (name addr rem : GoString)
    (hname : name.length = 256 * h1.val + l1.val)
    (haddr : addr.length = 256 * h2.val + l2.val)
    (hlen : 50 ≤ (h1 :: l1 :: (name ++ h2 :: l2 :: (addr ++ rem))).length) :
    decodeKey (h1 :: l1 :: (name ++ h2 :: l2 :: (addr ++ rem))) =
      ⟨.identifier addr, [HexBytes.String [h1, l1], HexBytes.String [h2, l2]]⟩ := by
  unfold decodeKey
  rw [if_neg (by omega), sliceTo_two]
  simp only [ParseInt_hex_pair, sliceFrom_two]
  rw [← hname, sliceFrom_length_append]
  simp only [sliceTo_two, ParseInt_hex_pair, sliceFrom_two]
  rw [← haddr, sliceFrom_length_append, sliceTo_length_append]

/-- No run of the decoding step ends in a parse-error branch. -/
theorem decodeKey_no_parse_error (key : GoString) :
    (decodeKey key).outcome ≠ .mapNameParseError ∧
    (decodeKey key).outcome ≠ .addressParseError := by
  unfold decodeKey
  split
  · simp
  · split
    · simp
    · next li hli =>
      obtain ⟨a, b, t, rfl, rfl⟩ := sliceTo_two_eq_some _ _ hli
      simp only [ParseInt_hex_pair]
      split
      · simp
      · split
        · simp
        · split
          · simp
          · next li2 hli2 =>
            obtain ⟨a2, b2, t2, _, rfl⟩ := sliceTo_two_eq_some _ _ hli2
            simp only [ParseInt_hex_pair]
            split
            · simp
            · split <;> simp

/-- A map-name length above the number of octets left after the indicator ends in a panic. -/
theorem decodeKey_name_length_exceeds (h l : Byte) (tail : GoString)
    (hlen : 48 ≤ tail.length) (hover : tail.length < 256 * h.val + l.val) :
    (decodeKey (h :: l :: tail)).outcome = .slicePanic := by
  have hs : sliceFrom tail ((256 * h.val + l.val : Nat) : Int) = none := by
    unfold sliceFrom
    rw [if_neg]
    omega
  unfold decodeKey
  rw [if_neg (by simp only [List.length_cons]; omega), sliceTo_two]
  simp only [ParseInt_hex_pair, sliceFrom_two, hs]

/-- An address length above the number of octets left after the indicator ends in a panic. -/
theorem decodeKey_address_length_exceeds (h1 l1 h2 l2 : Byte) (name tail : GoString)
    (hname : name.length = 256 * h1.val + l1.val)
    (hlen : 50 ≤ (h1 :: l1 :: (name ++ h2 :: l2 :: tail)).length)
    (hover : tail.length < 256 * h2.val + l2.val) :
    (decodeKey (h1 :: l1 :: (name ++ h2 :: l2 :: tail))).outcome = .slicePanic := by
  have hs : sliceFrom tail ((256 * h2.val + l2.val : Nat) : Int) = none := by
    unfold sliceFrom
    rw [if_neg]
    omega
  have ht : sliceTo tail ((256 * h2.val + l2.val : Nat) : Int) = none := by
    unfold sliceTo
    rw [if_neg]
    omega
  unfold decodeKey
  rw [if_neg (by omega), sliceTo_two]
  simp only [ParseInt_hex_pair, sliceFrom_two]
  rw [← hname, sliceFrom_length_append]
  simp only [sliceTo_two, ParseInt_hex_pair, sliceFrom_two, hs, ht]

theorem be16_val (n : Nat) (hn : n < 65536) :
    ∃ h l : Byte, be16 n = [h, l] ∧ 256 * h.val + l.val = n := by
  refine ⟨Fin.ofNat (n / 256), Fin.ofNat (n % 256), rfl, ?_⟩
  simp only [Fin.ofNat, Fin.val_mk]
  omega

/-! ## Claims on the key-decoding step -/

/-- C1 (as stated, refuted): with one-octet length indicators `[N1][name][N2][addr][rest]` the
decoding step does not record `addr`. For the key `00 01 41 00 03 78 79 7A 00...` (N1 = 0,
N2 = 1, addr = "A") it records "xyz". -/
theorem C1_one_octet_lengths_refuted :
    ¬ ∀ (n1 n2 : Byte) (name addr rest : GoString),
      name.length = n1.val → addr.length = n2.val →
      50 ≤ (n1 :: (name ++ n2 :: (addr ++ rest))).length →
      (decodeKey (n1 :: (name ++ n2 :: (addr ++ rest)))).outcome = .identifier addr := by
  intro h
  have h1 := h 0 1 [] [65] ([0, 3] ++ ascii "xyz" ++ List.replicate 42 0) rfl rfl (by decide)
  revert h1
  decide

/-- C1 (amended): for every key of at least 50 octets of the form
`[be16 N1][N1 map-name octets][be16 N2][N2 address octets][rest]`, the length indicators being
two octets each in big-endian order, the decoding step records exactly the address octets. -/
theorem C1_decodeKey_records_address (name addr rest : GoString)
    (hname : name.length < 65536) (haddr : addr.length < 65536)
    (hlen : 50 ≤ (be16 name.length ++ name ++ be16 addr.length ++ addr ++ rest).length) :
    (decodeKey (be16 name.length ++ name ++ be16 addr.length ++ addr ++ rest)).outcome =
      .identifier addr := by
  obtain ⟨h1, l1, e1, v1⟩ := be16_val name.length hname
  obtain ⟨h2, l2, e2, v2⟩ := be16_val addr.length haddr
  rw [e1, e2] at hlen ⊢
  have hk : [h1, l1] ++ name ++ [h2, l2] ++ addr ++ rest =
      h1 :: l1 :: (name ++ h2 :: l2 :: (addr ++ rest)) := by simp
  rw [hk] at hlen ⊢
  rw [decodeKey_layout h1 l1 h2 l2 name addr rest v1.symm v2.symm hlen]

theorem C1_decodeKey_records_address_witness :
    (decodeKey (be16 5 ++ ascii "debts" ++ be16 43 ++
        ascii "osmo1cyyzpxplxdzkeea7kwsydadg87357qnahakaks" ++ ascii "uosmo")).outcome =
      .identifier (ascii "osmo1cyyzpxplxdzkeea7kwsydadg87357qnahakaks") :=
  C1_decodeKey_records_address (ascii "debts")
    (ascii "osmo1cyyzpxplxdzkeea7kwsydadg87357qnahakaks") (ascii "uosmo")
    (by decide) (by decide) (by decide)

/-- C10: for every key of at least 50 octets of the form
`[h1 l1][L1 map-name octets][h2 l2][L2 address octets][rest]` with `L1 = 256*h1 + l1` and
`L2 = 256*h2 + l2`, each length indicator is handed to `ParseInt` as the hex rendering of its
two octets and parses to that big-endian value, the step records exactly the address octets,
and on no key at all does the step leave through a parse-error branch. -/
theorem C10_decodeKey_big_endian_lengths (h1 l1 h2 l2 : Byte) (name addr rest : GoString)
    (hname : name.length = 256 * h1.val + l1.val)
    (haddr : addr.length = 256 * h2.val + l2.val)
    (hlen : 50 ≤ (h1 :: l1 :: (name ++ h2 :: l2 :: (addr ++ rest))).length) :
    ParseInt (HexBytes.String [h1, l1]) = .ok ((256 * h1.val + l1.val : Nat) : Int) ∧
    ParseInt (HexBytes.String [h2, l2]) = .ok ((256 * h2.val + l2.val : Nat) : Int) ∧
    decodeKey (h1 :: l1 :: (name ++ h2 :: l2 :: (addr ++ rest))) =
      ⟨.identifier addr, [HexBytes.String [h1, l1], HexBytes.String [h2, l2]]⟩ ∧
    (∀ key : GoString, (decodeKey key).outcome ≠ .mapNameParseError ∧
      (decodeKey key).outcome ≠ .addressParseError) :=
  ⟨ParseInt_hex_pair h1 l1, ParseInt_hex_pair h2 l2,
    decodeKey_layout h1 l1 h2 l2 name addr rest hname haddr hlen, decodeKey_no_parse_error⟩

theorem C10_decodeKey_big_endian_lengths_witness :
    ParseInt (HexBytes.String [0, 11]) = .ok (((256 * 0 + 11 : Nat)) : Int) ∧
    ParseInt (HexBytes.String [0, 43]) = .ok (((256 * 0 + 43 : Nat)) : Int) ∧
    decodeKey ((0 : Byte) :: 11 :: (ascii "collaterals" ++ (0 : Byte) :: 43 ::
        (ascii "osmo1g3jjhgkyf36pjhe7u5cw8j9u6cgl8x929ej430" ++ ascii "uatom"))) =
      ⟨.identifier (ascii "osmo1g3jjhgkyf36pjhe7u5cw8j9u6cgl8x929ej430"),
        [HexBytes.String [0, 11], HexBytes.String [0, 43]]⟩ ∧
    (∀ key : GoString, (decodeKey key).outcome ≠ .mapNameParseError ∧
      (decodeKey key).outcome ≠ .addressParseError) :=
  C10_decodeKey_big_endian_lengths 0 11 0 43 (ascii "collaterals")
    (ascii "osmo1g3jjhgkyf36pjhe7u5cw8j9u6cgl8x929ej430") (ascii "uatom")
    (by decide) (by decide) (by decide)

/-- C2 (failing input): a key of 50 octets `FF` decodes a map-name length of 65535, more than
the 48 octets that remain; the step ends in a slice-bounds panic, and so do the scan and
`getAllAddresses`, whatever entries follow. A key with an empty map name and the address
length 65535 ends the same way. -/
theorem C2_overlong_length_panics :
    decodeKey (List.replicate 50 255) = ⟨.slicePanic, [ascii "FFFF"]⟩ ∧
    decodeKey ([0, 0, 255, 255] ++ List.replicate 46 97) =
      ⟨.slicePanic, [ascii "0000", ascii "FFFF"]⟩ ∧
    (∀ (rest : List Model) (accounts : List GoString) (n : Nat),
      scanModels (⟨List.replicate 50 255, []⟩ :: rest) accounts n = .error .sliceBounds) ∧
    (∀ (unmarshal : Unmarshal) (rangeOrder : List GoString → List GoString)
        (rest : List Model) (data : Data),
      getAllAddresses unmarshal rangeOrder (.ok (⟨List.replicate 50 255, []⟩ :: rest)) data =
        .error .sliceBounds) := by
  have hk : decodeKey (List.replicate 50 255) = ⟨.slicePanic, [ascii "FFFF"]⟩ := by decide
  have hs : ∀ (rest : List Model) (accounts : List GoString) (n : Nat),
      scanModels (⟨List.replicate 50 255, []⟩ :: rest) accounts n = .error .sliceBounds := by
    intro rest accounts n
    rw [scanModels]
    simp only [hk]
  refine ⟨hk, by decide, hs, ?_⟩
  intro unmarshal rangeOrder rest data
  simp only [getAllAddresses, hs]

/-- C8: every key shorter than 50 octets leaves the decoding step at the length guard, with no
string handed to `ParseInt` and no slice taken, and the scan goes on to the next entry with the
account map as it was. -/
theorem C8_short_key_rejected (key : GoString) (hshort : key.length < 50) :
    decodeKey key = ⟨.tooShort, []⟩ ∧
    ∀ (value : GoString) (rest : List Model) (accounts : List GoString) (n : Nat),
      scanModels (⟨key, value⟩ :: rest) accounts n = scanModels rest accounts (n + 1) := by
  have hk : decodeKey key = ⟨.tooShort, []⟩ := by
    unfold decodeKey
    rw [if_pos hshort]
  refine ⟨hk, ?_⟩
  intro value rest accounts n
  rw [scanModels]
  simp only [hk]

theorem C8_short_key_rejected_witness :
    (ascii "config").length < 50 ∧
    (decodeKey (ascii "config") = ⟨.tooShort, []⟩ ∧
      ∀ (value : GoString) (rest : List Model) (accounts : List GoString) (n : Nat),
        scanModels (⟨ascii "config", value⟩ :: rest) accounts n =
          scanModels rest accounts (n + 1)) :=
  ⟨by decide, C8_short_key_rejected (ascii "config") (by decide)⟩

/-! ## The account map -/

theorem mem_insertAccount (accounts : List GoString) (identifier x : GoString) :
    x ∈ insertAccount accounts identifier ↔ x ∈ accounts ∨ x = identifier := by
  unfold insertAccount
  split
  · next h =>
    constructor
    · exact Or.inl
    · rintro (h1 | rfl)
      · exact h1
      · exact h
  · simp

theorem nodup_insertAccount (accounts : List GoString) (identifier : GoString)
    (hnd : accounts.Nodup) : (insertAccount accounts identifier).Nodup := by
  unfold insertAccount
  split
  · exact hnd
  · next h =>
    rw [List.nodup_append]
    refine ⟨hnd, List.nodup_singleton _, ?_⟩
    intro a ha hb
    rw [List.mem_singleton] at hb
    exact h (hb ▸ ha)

theorem insertAccount_of_mem (accounts : List GoString) (identifier : GoString)
    (h : identifier ∈ accounts) : insertAccount accounts identifier = accounts := by
  unfold insertAccount
  rw [if_pos h]

theorem mem_foldl_insertAccount (l accounts : List GoString) (x : GoString) :
    x ∈ l.foldl insertAccount accounts ↔ x ∈ accounts ∨ x ∈ l := by
  induction l generalizing accounts with
  | nil => simp
  | cons a t ih =>
    rw [List.foldl_cons, ih, mem_insertAccount, List.mem_cons]
    tauto

theorem nodup_foldl_insertAccount (l accounts : List GoString) (hnd : accounts.Nodup) :
    (l.foldl insertAccount accounts).Nodup := by
  induction l generalizing accounts with
  | nil => exact hnd
  | cons a t ih => exact ih _ (nodup_insertAccount accounts a hnd)

/-- The account map built from scratch holds as many keys as there are distinct identifiers. -/
theorem length_foldl_insertAccount (l : List GoString) :
    (l.foldl insertAccount []).length = l.dedup.length := by
  apply List.Perm.length_eq
  rw [List.perm_ext_iff_of_nodup (nodup_foldl_insertAccount l [] List.nodup_nil)
    (List.nodup_dedup l)]
  intro x
  rw [mem_foldl_insertAccount, List.mem_dedup]
  simp

/-! ## The first loop -/

theorem scanModels_cons (model : Model) (rest : List Model) (accounts : List GoString)
    (n : Nat) :
    scanModels (model :: rest) accounts n =
      if (decodeKey model.Key).outcome = .slicePanic then .error .sliceBounds
      else scanModels rest ((decodedIdentifier model).elim accounts (insertAccount accounts))
        (n + 1) := by
  rw [scanModels, decodedIdentifier]
  split <;> simp_all

theorem scanModels_ok (models : List Model) (accounts : List GoString) (n : Nat)
    (r : List GoString × Nat) (h : scanModels models accounts n = .ok r) :
    r = ((decodedIdentifiers models).foldl insertAccount accounts, n + models.length) := by
  induction models generalizing accounts n with
  | nil =>
    rw [scanModels] at h
    cases h
    rfl
  | cons m rest ih =>
    rw [scanModels_cons] at h
    split at h
    · cases h
    · have := ih _ _ h
      rw [this]
      unfold decodedIdentifiers
      cases hm : decodedIdentifier m with
      | none =>
        rw [List.filterMap_cons_none hm]
        simp only [Option.elim, List.length_cons]
        congr 1
        omega
      | some identifier =>
        rw [List.filterMap_cons_some hm]
        simp only [Option.elim, List.length_cons, List.foldl_cons]
        congr 1
        omega

theorem scanModels_append (models : List Model) (extra : Model) (accounts : List GoString)
    (n : Nat) (r : List GoString × Nat) (h : scanModels models accounts n = .ok r) :
    scanModels (models ++ [extra]) accounts n = scanModels [extra] r.1 r.2 := by
  induction models generalizing accounts n with
  | nil =>
    rw [scanModels] at h
    cases h
    rfl
  | cons m rest ih =>
    rw [List.cons_append, scanModels_cons]
    rw [scanModels_cons] at h
    split at h
    · cases h
    · next hp =>
      rw [if_neg hp]
      exact ih _ _ h

/-! ## The second loop -/

theorem collectLoop_length (unmarshal : Unmarshal) (order : List GoString) (data : Data)
    (results out : List GoString)
    (h : collectLoop unmarshal order data results = (out, none)) :
    out.length = results.length + order.length := by
  induction order generalizing data results with
  | nil =>
    rw [collectLoop] at h
    cases h
    simp
  | cons identifier rest ih =>
    rw [collectLoop] at h
    split at h
    · cases h
    · have := ih _ _ h
      rw [this]
      simp
      omega

theorem collectLoop_of_sets_addr (unmarshal : Unmarshal) (addrOf : GoString → GoString)
    (order : List GoString) (data : Data) (results : List GoString)
    (hdec : ∀ identifier ∈ order, ∀ d : Data, unmarshal identifier d = .ok ⟨addrOf identifier⟩) :
    collectLoop unmarshal order data results = (results ++ order.map addrOf, none) := by
  induction order generalizing data results with
  | nil => simp [collectLoop]
  | cons identifier rest ih =>
    rw [collectLoop, hdec identifier (List.mem_cons_self _ _) data]
    simp only
    rw [ih _ _ (fun i hi d => hdec i (List.mem_cons_of_mem _ hi) d)]
    simp

/-! ## Claims on the scan -/

/-- C5 (as stated, refuted): on a dump with the identifiers `{"addr":"a"}` and `{"addr": "a"}`
the scan succeeds and returns the address "a" twice, in whichever order the map is ranged
over. -/
theorem C5_same_address_returned_twice :
    getAllAddresses unmarshalFlat id (.ok sameAddressDump) ⟨[]⟩ =
      .ok ([ascii "a", ascii "a"], 2, none) ∧
    getAllAddresses unmarshalFlat List.reverse (.ok sameAddressDump) ⟨[]⟩ =
      .ok ([ascii "a", ascii "a"], 2, none) ∧
    ¬ [ascii "a", ascii "a"].Nodup := by
  refine ⟨by decide, by decide, by decide⟩

/-- C5 (amended): when `getAllAddresses` returns on a state dump in which every decoded
identifier's JSON text sets `addr` (to `addrOf identifier`) and distinct identifiers carry
distinct `addr` values, it returns without error and no address occurs twice in the list. -/
theorem C5_addresses_distinct (unmarshal : Unmarshal)
    (rangeOrder : List GoString → List GoString) (models : List Model) (data : Data)
    (addrOf : GoString → GoString) (results : List GoString) (n : Nat) (err : Option GoError)
    (hperm : ∀ l, (rangeOrder l).Perm l)
    (hdec : ∀ identifier ∈ decodedIdentifiers models, ∀ d : Data,
      unmarshal identifier d = .ok ⟨addrOf identifier⟩)
    (hinj : ∀ a ∈ decodedIdentifiers models, ∀ b ∈ decodedIdentifiers models,
      addrOf a = addrOf b → a = b)
    (h : getAllAddresses unmarshal rangeOrder (.ok models) data = .ok (results, n, err)) :
    err = none ∧ results.Nodup := by
  simp only [getAllAddresses] at h
  cases hs : scanModels models [] 0 with
  | error p => rw [hs] at h; cases h
  | ok r =>
    obtain ⟨accounts, k⟩ := r
    rw [hs] at h
    have hr := scanModels_ok models [] 0 _ hs
    have hacc : accounts = (decodedIdentifiers models).foldl insertAccount [] :=
      congrArg Prod.fst hr
    have hmem : ∀ x, x ∈ rangeOrder accounts → x ∈ decodedIdentifiers models := by
      intro x hx
      have := (hperm accounts).mem_iff.mp hx
      rw [hacc, mem_foldl_insertAccount] at this
      simpa using this
    have hnd : (rangeOrder accounts).Nodup := by
      rw [(hperm accounts).nodup_iff, hacc]
      exact nodup_foldl_insertAccount _ [] List.nodup_nil
    have hc := collectLoop_of_sets_addr unmarshal addrOf (rangeOrder accounts) data []
      (fun i hi d => hdec i (hmem i hi) d)
    simp only [hc, List.nil_append, Except.ok.injEq, Prod.mk.injEq] at h
    obtain ⟨h1, _, h3⟩ := h
    refine ⟨h3.symm, ?_⟩
    rw [← h1]
    exact List.Nodup.map_on (fun a ha b hb e => hinj a (hmem a ha) b (hmem b hb) e) hnd

theorem C5_addresses_distinct_witness :
    getAllAddresses unmarshalFlat id (.ok twoAddressDump) ⟨[]⟩ =
      .ok ([ascii "a", ascii "b"], 2, none) ∧
    ((none : Option GoError) = none ∧ [ascii "a", ascii "b"].Nodup) :=
  ⟨by decide,
    C5_addresses_distinct unmarshalFlat id twoAddressDump ⟨[]⟩ flatAddr
      [ascii "a", ascii "b"] 2 none (fun l => List.Perm.refl l)
      (by
        intro identifier hi d
        have hl : decodedIdentifiers twoAddressDump =
            [ascii "\x7b\"addr\":\"a\"\x7d", ascii "\x7b\"addr\":\"b\"\x7d"] := by decide
        rw [hl] at hi
        simp only [List.mem_cons, List.mem_singleton, List.not_mem_nil, or_false] at hi
        rcases hi with rfl | rfl <;> rfl)
      (by decide) (by decide)⟩

/-- C6: when `getAllAddresses` returns without error, the number of addresses returned is the
number of distinct identifiers decoded from the keys of the dump, every entry has been counted,
and a further entry whose key decodes to an identifier already seen leaves the address list as
it was (the count of scanned entries going up by one). -/
theorem C6_one_address_per_identifier (unmarshal : Unmarshal)
    (rangeOrder : List GoString → List GoString) (models : List Model) (data : Data)
    (results : List GoString) (n : Nat)
    (hperm : ∀ l, (rangeOrder l).Perm l)
    (h : getAllAddresses unmarshal rangeOrder (.ok models) data = .ok (results, n, none)) :
    results.length = (decodedIdentifiers models).dedup.length ∧
    n = models.length ∧
    ∀ (extra : Model) (identifier : GoString),
      decodedIdentifier extra = some identifier → identifier ∈ decodedIdentifiers models →
      getAllAddresses unmarshal rangeOrder (.ok (models ++ [extra])) data =
        .ok (results, n + 1, none) := by
  simp only [getAllAddresses] at h
  cases hs : scanModels models [] 0 with
  | error p => rw [hs] at h; cases h
  | ok r =>
    obtain ⟨accounts, k⟩ := r
    rw [hs] at h
    simp only [Except.ok.injEq, Prod.mk.injEq] at h
    obtain ⟨h1, h2, h3⟩ := h
    have hr := scanModels_ok models [] 0 _ hs
    have hacc : accounts = (decodedIdentifiers models).foldl insertAccount [] :=
      congrArg Prod.fst hr
    have hk : k = 0 + models.length := congrArg Prod.snd hr
    have hlen := collectLoop_length unmarshal (rangeOrder accounts) data [] results
      (Prod.ext h1 h3)
    refine ⟨?_, by omega, ?_⟩
    · rw [hlen, (hperm accounts).length_eq, hacc, length_foldl_insertAccount]
      simp
    · intro extra identifier hd hmem
      have hin : identifier ∈ accounts := by
        rw [hacc, mem_foldl_insertAccount]
        exact Or.inr hmem
      have hnp : (decodeKey extra.Key).outcome ≠ .slicePanic := by
        intro hp
        rw [decodedIdentifier, hp] at hd
        cases hd
      simp only [getAllAddresses]
      rw [scanModels_append models extra [] 0 _ hs, scanModels_cons, if_neg hnp, hd]
      simp only [Option.elim]
      rw [insertAccount_of_mem _ _ hin, scanModels]
      simp only [h1, h3, h2]

theorem C6_one_address_per_identifier_witness :
    getAllAddresses unmarshalFlat id (.ok scriptedDump) ⟨[]⟩ = .ok ([ascii "a"], 3, none) ∧
    ([ascii "a"].length = (decodedIdentifiers scriptedDump).dedup.length ∧
      3 = scriptedDump.length ∧
      ∀ (extra : Model) (identifier : GoString),
        decodedIdentifier extra = some identifier →
        identifier ∈ decodedIdentifiers scriptedDump →
        getAllAddresses unmarshalFlat id (.ok (scriptedDump ++ [extra])) ⟨[]⟩ =
          .ok ([ascii "a"], 3 + 1, none)) :=
  ⟨by decide,
    C6_one_address_per_identifier unmarshalFlat id scriptedDump ⟨[]⟩ [ascii "a"] 3
      (fun l => List.Perm.refl l) (by decide)⟩

/-! ## Coin extraction -/

theorem coinLoop_cons (newIntFromString : GoString → Option Int) (item : JSONValue)
    (rest : List JSONValue) (coin : List Coin) :
    coinLoop newIntFromString (item :: rest) coin =
      coinLoop newIntFromString rest
        (coin ++ (entryCoin newIntFromString item).toList) := by
  cases item with
  | object fields =>
    cases ha : mapIndex fields (ascii "amount") with
    | none => simp [coinLoop, entryCoin, ha]
    | some a =>
      cases a with
      | string amountStr =>
        cases hd : mapIndex fields (ascii "denom") with
        | none => simp [coinLoop, entryCoin, ha, hd]
        | some d =>
          cases d with
          | string denomStr =>
            cases hp : newIntFromString amountStr <;> simp [coinLoop, entryCoin, ha, hd, hp]
          | _ => simp [coinLoop, entryCoin, ha, hd]
      | _ => simp [coinLoop, entryCoin, ha]
  | _ => simp [coinLoop, entryCoin]

/-- The loop appends, in order, the coins of the entries that have one. -/
theorem coinLoop_eq_filterMap (newIntFromString : GoString → Option Int)
    (items : List JSONValue) (coin : List Coin) :
    coinLoop newIntFromString items coin =
      coin ++ items.filterMap (entryCoin newIntFromString) := by
  induction items generalizing coin with
  | nil => simp [coinLoop]
  | cons item rest ih =>
    rw [coinLoop_cons, ih]
    cases h : entryCoin newIntFromString item with
    | none => rw [List.filterMap_cons_none h]; simp
    | some c => rw [List.filterMap_cons_some h]; simp

theorem entryCoin_of_missing (newIntFromString : GoString → Option Int)
    (fields : List (GoString × JSONValue))
    (h : mapIndex fields (ascii "amount") = none ∨ mapIndex fields (ascii "denom") = none) :
    entryCoin newIntFromString (.object fields) = none := by
  simp only [entryCoin]
  rcases h with h | h
  · rw [h]
  · rw [h]
    split
    · next h1 h2 => cases h2
    · rfl

/-- C7: for every decoded body whose `data` field is a list, the coin extraction of
`userPosition` returns, with a nil error, the coins of exactly the entries that are objects
with a string `amount` that parses and a string `denom`, in their order; an entry in which
`amount` or `denom` is missing contributes nothing and the entries before and after it
contribute what they contribute without it. -/
theorem C7_userPosition_skips_entry_alone (newIntFromString : GoString → Option Int)
    (body : List (GoString × JSONValue)) (data : List JSONValue)
    (hdata : mapIndex body (ascii "data") = some (.array data)) :
    userPosition newIntFromString (.ok body) =
      (data.filterMap (entryCoin newIntFromString), none) ∧
    ∀ (before after : List JSONValue) (fields : List (GoString × JSONValue)),
      data = before ++ .object fields :: after →
      (mapIndex fields (ascii "amount") = none ∨ mapIndex fields (ascii "denom") = none) →
      (userPosition newIntFromString (.ok body)).1 =
        coinLoop newIntFromString before [] ++ coinLoop newIntFromString after [] := by
  have hu : userPosition newIntFromString (.ok body) =
      (data.filterMap (entryCoin newIntFromString), none) := by
    simp only [userPosition, hdata, coinLoop_eq_filterMap, List.nil_append]
  refine ⟨hu, ?_⟩
  intro before after fields hsplit hmiss
  rw [hu, hsplit]
  simp only [coinLoop_eq_filterMap, List.nil_append, List.filterMap_append]
  rw [List.filterMap_cons_none (entryCoin_of_missing newIntFromString fields hmiss)]

theorem C7_userPosition_skips_entry_alone_witness :
    userPosition decimalInt (.ok [(ascii "data", .array sampleEntries)]) =
      (sampleEntries.filterMap (entryCoin decimalInt), none) ∧
    ∀ (before after : List JSONValue) (fields : List (GoString × JSONValue)),
      sampleEntries = before ++ .object fields :: after →
      (mapIndex fields (ascii "amount") = none ∨ mapIndex fields (ascii "denom") = none) →
      (userPosition decimalInt (.ok [(ascii "data", .array sampleEntries)])).1 =
        coinLoop decimalInt before [] ++ coinLoop decimalInt after [] :=
  C7_userPosition_skips_entry_alone decimalInt [(ascii "data", .array sampleEntries)]
    sampleEntries rfl

/-! ## Bit lengths and the range of `sdkmath.Int` -/

namespace sdkmath

theorem bitLenNat_le_iff (fuel n k : Nat) (h : n ≤ fuel) :
    bitLenNat fuel n ≤ k ↔ n < 2 ^ k := by
  induction fuel generalizing n k with
  | zero =>
    have : n = 0 := by omega
    subst this
    simp [bitLenNat]
  | succ f ih =>
    rw [bitLenNat]
    split
    · next h0 => subst h0; simp
    · next h0 =>
      cases k with
      | zero => simp; omega
      | succ k =>
        rw [Nat.add_le_add_iff_right, ih (n / 2) k (by omega), pow_succ]
        omega

theorem lt_BitLen_iff (x : Int) (k : Nat) : k < BitLen x ↔ 2 ^ k ≤ x.natAbs := by
  have := bitLenNat_le_iff x.natAbs x.natAbs k le_rfl
  unfold BitLen
  omega

theorem BitLen_one : BitLen 1 = 1 := by decide

theorem Add_of_lt (i i2 : Int) (h : (i + i2).natAbs < 2 ^ 256) : Add i i2 = .ok (i + i2) := by
  unfold Add MaxBitLen
  rw [if_neg]
  rw [lt_BitLen_iff]
  omega

theorem Mul_one_of_lt (i : Int) (h : i.natAbs < 2 ^ 256) : Mul i 1 = .ok i := by
  unfold Mul MaxBitLen
  rw [BitLen_one, Nat.add_sub_cancel, mul_one, if_neg, if_neg]
  all_goals
    rw [lt_BitLen_iff]
    omega

theorem natAbs_chopNonneg_le (d : Int) :
    (chopNonneg d).natAbs ≤ d.natAbs / 10 ^ 18 + 1 := by
  have h1 : (d.tdiv precisionReuse).natAbs = d.natAbs / 10 ^ 18 := by
    rw [Int.natAbs_tdiv]
    rfl
  have h2 : (d.tdiv precisionReuse + 1).natAbs ≤ d.natAbs / 10 ^ 18 + 1 := by
    have := Int.natAbs_add_le (d.tdiv precisionReuse) 1
    rw [h1] at this
    simpa using this
  unfold chopNonneg
  split_ifs <;> first | exact h2 | (rw [h1]; omega)

theorem natAbs_chopPrecisionAndRound_le (d : Int) :
    (chopPrecisionAndRound d).natAbs ≤ d.natAbs / 10 ^ 18 + 1 := by
  unfold chopPrecisionAndRound
  split
  · rw [Int.natAbs_neg]
    have := natAbs_chopNonneg_le (-d)
    rwa [Int.natAbs_neg] at this
  · exact natAbs_chopNonneg_le d

theorem maxDecBitLen_eq : maxDecBitLen = 315 := by decide

theorem Quo_of_le (d d2 : LegacyDec) (h2 : d2.i ≠ 0)
    (hq : (chopPrecisionAndRound ((d.i * (precisionReuse * precisionReuse)).tdiv d2.i)).natAbs
      < 2 ^ 315) :
    d.Quo d2 =
      .ok ⟨chopPrecisionAndRound ((d.i * (precisionReuse * precisionReuse)).tdiv d2.i)⟩ := by
  unfold LegacyDec.Quo
  rw [maxDecBitLen_eq, if_neg h2, if_neg]
  rw [lt_BitLen_iff]
  omega

/-- A quotient whose chopped mantissa needs more than 315 bits makes `Quo` panic. -/
theorem Quo_of_ge (d d2 : LegacyDec) (h2 : d2.i ≠ 0)
    (hq : 2 ^ 315 ≤
      (chopPrecisionAndRound ((d.i * (precisionReuse * precisionReuse)).tdiv d2.i)).natAbs) :
    d.Quo d2 = .error .intOverflow := by
  unfold LegacyDec.Quo
  rw [maxDecBitLen_eq, if_neg h2, if_pos]
  rw [lt_BitLen_iff]
  exact hq

/-- For a collateral total below `2^255` the quotient of the promoted totals fits a decimal. -/
theorem quotient_fits_of_lt (c d : Int) (hc : c.natAbs < 2 ^ 255) (hd : d ≠ 0) :
    (chopPrecisionAndRound
      ((c * precisionReuse * (precisionReuse * precisionReuse)).tdiv
        (d * precisionReuse))).natAbs < 2 ^ 315 := by
  have hb : ((c * precisionReuse * (precisionReuse * precisionReuse)).tdiv
      (d * precisionReuse)).natAbs ≤ c.natAbs * 10 ^ 36 := by
    rw [Int.natAbs_tdiv]
    have e1 : (c * precisionReuse * (precisionReuse * precisionReuse)).natAbs =
        c.natAbs * 10 ^ 54 := by
      simp only [Int.natAbs_mul]
      have : precisionReuse.natAbs = 10 ^ 18 := by decide
      rw [this]
      ring
    have e2 : (d * precisionReuse).natAbs = d.natAbs * 10 ^ 18 := by
      rw [Int.natAbs_mul]
      rfl
    rw [e1, e2]
    have hd1 : 1 ≤ d.natAbs := Int.natAbs_pos.mpr hd
    calc (c.natAbs * 10 ^ 54).div (d.natAbs * 10 ^ 18)
        ≤ (c.natAbs * 10 ^ 54) / (1 * 10 ^ 18) :=
          Nat.div_le_div_left (Nat.mul_le_mul_right _ hd1) (by norm_num)
      _ = c.natAbs * 10 ^ 36 := by omega
  have hq := natAbs_chopPrecisionAndRound_le
    ((c * precisionReuse * (precisionReuse * precisionReuse)).tdiv (d * precisionReuse))
  omega

/-- Dividing promoted integers whose quotient fits a decimal does not panic. -/
theorem Quo_FromInt_ok (c d : Int) (hd : d ≠ 0)
    (hfit : (chopPrecisionAndRound
      ((c * precisionReuse * (precisionReuse * precisionReuse)).tdiv
        (d * precisionReuse))).natAbs < 2 ^ 315) :
    (LegacyNewDecFromInt c).Quo (LegacyNewDecFromInt d) =
      .ok ⟨chopPrecisionAndRound
        ((c * precisionReuse * (precisionReuse * precisionReuse)).tdiv (d * precisionReuse))⟩ := by
  have hp : precisionReuse ≠ 0 := by decide
  have hne : (LegacyNewDecFromInt d).i ≠ 0 := mul_ne_zero hd hp
  exact Quo_of_le _ _ hne hfit

/-- Dividing a decimal by `LegacyNewDec(100)` does not panic. -/
theorem Quo_hundred_ok (q : LegacyDec) (hq : q.i.natAbs < 2 ^ 315) :
    q.Quo (LegacyNewDec 100) =
      .ok ⟨chopPrecisionAndRound
        ((q.i * (precisionReuse * precisionReuse)).tdiv (LegacyNewDec 100).i)⟩ := by
  have hne : (LegacyNewDec 100).i ≠ 0 := by decide
  have hb : ((q.i * (precisionReuse * precisionReuse)).tdiv (LegacyNewDec 100).i).natAbs =
      q.i.natAbs * 10 ^ 36 / 10 ^ 20 := by
    rw [Int.natAbs_tdiv]
    have e1 : (q.i * (precisionReuse * precisionReuse)).natAbs = q.i.natAbs * 10 ^ 36 := by
      simp only [Int.natAbs_mul]
      have : precisionReuse.natAbs = 10 ^ 18 := by decide
      rw [this]
      ring
    have e2 : (LegacyNewDec 100).i.natAbs = 10 ^ 20 := by decide
    rw [e1, e2]
    rfl
  have hc := natAbs_chopPrecisionAndRound_le
    ((q.i * (precisionReuse * precisionReuse)).tdiv (LegacyNewDec 100).i)
  refine Quo_of_le _ _ hne ?_
  omega

/-- Truncated division cancels a common positive factor. -/
theorem tdiv_mul_right_cancel (a b c : Int) (hb : 0 < b) (hc : 0 < c) :
    (a * c).tdiv (b * c) = a.tdiv b := by
  have hbc : 0 ≤ b * c := le_of_lt (mul_pos hb hc)
  rcases le_or_lt 0 a with ha | ha
  · rw [Int.tdiv_eq_ediv (mul_nonneg ha (le_of_lt hc)) hbc,
      Int.tdiv_eq_ediv ha (le_of_lt hb)]
    exact Int.mul_ediv_mul_of_pos_left a b hc
  · have hna : 0 ≤ -a := by omega
    have e1 : a * c = -((-a) * c) := by ring
    have e2 : a = -(-a) := by ring
    rw [e1, Int.neg_tdiv, Int.tdiv_eq_ediv (mul_nonneg hna (le_of_lt hc)) hbc,
      Int.mul_ediv_mul_of_pos_left (-a) b hc]
    conv_rhs => rw [e2, Int.neg_tdiv, Int.tdiv_eq_ediv hna (le_of_lt hb)]

/-- The quotient that `Quo` chops, for promoted integers with a positive divisor. -/
theorem tdiv_promoted (c d : Int) (hd : 0 < d) :
    (c * precisionReuse * (precisionReuse * precisionReuse)).tdiv (d * precisionReuse) =
      (c * 10 ^ 36).tdiv d := by
  have e : c * precisionReuse * (precisionReuse * precisionReuse) =
      c * 10 ^ 36 * precisionReuse := by
    simp only [precisionReuse]
    ring
  rw [e, tdiv_mul_right_cancel _ _ _ hd (by decide)]

/-- The quotient that `Quo` chops, for the divisor `LegacyNewDec(100)`. -/
theorem tdiv_hundred (x : Int) :
    (x * (precisionReuse * precisionReuse)).tdiv (LegacyNewDec 100).i = x * 10 ^ 16 := by
  have e : x * (precisionReuse * precisionReuse) = x * 10 ^ 16 * (LegacyNewDec 100).i := by
    simp only [precisionReuse, LegacyNewDec]
    ring
  rw [e, Int.mul_tdiv_cancel _ (by decide)]

end sdkmath

/-! ## The accumulating loops -/

theorem totalLoop_of_withinRange (coins : List Coin) (total : Int)
    (h : withinRange coins total = true) :
    totalLoop coins total = .ok (total + pricedTotal coins) := by
  induction coins generalizing total with
  | nil => simp [totalLoop, pricedTotal]
  | cons coin rest ih =>
    simp only [withinRange, Bool.and_eq_true, decide_eq_true_eq] at h
    obtain ⟨⟨h1, h2⟩, h3⟩ := h
    rw [totalLoop]
    simp only [getPrice, mul_one] at h2 h3 ⊢
    rw [sdkmath.Mul_one_of_lt _ h1]
    simp only
    rw [sdkmath.Add_of_lt _ _ h2]
    simp only
    rw [ih _ h3]
    simp only [pricedTotal, getPrice, mul_one, List.map_cons, List.sum_cons]
    rw [add_assoc]

theorem natAbs_pricedTotal_lt (coins : List Coin) (total : Int)
    (h0 : total.natAbs < 2 ^ 256) (h : withinRange coins total = true) :
    (total + pricedTotal coins).natAbs < 2 ^ 256 := by
  induction coins generalizing total with
  | nil => simpa [pricedTotal] using h0
  | cons coin rest ih =>
    simp only [withinRange, Bool.and_eq_true, decide_eq_true_eq] at h
    obtain ⟨⟨_, h2⟩, h3⟩ := h
    have := ih _ h2 h3
    simp only [pricedTotal, List.map_cons, List.sum_cons] at this ⊢
    rwa [add_assoc] at this

/-! ## Claims on the ratio calculator -/

set_option maxRecDepth 8192

/-- C3 (as stated, refuted): with a debt total of 1 and the collateral amounts `2^255` and
`2^255`, whose sum needs 257 bits, the call does not return a ratio: the second `Add` of the
collateral loop panics with "Int overflow". With a debt total of 1 and the single collateral
amount `2^256 - 1` both loops complete, and the first `Quo` panics with "Int overflow": the
mantissa `(2^256 - 1) * 10^18` of the quotient needs 316 bits, one more than a decimal holds. -/
theorem C3_collateral_overflow_panics :
    0 < pricedTotal [⟨1, ascii "uosmo"⟩] ∧
    calculateCollateralizationRatio [⟨1, ascii "uosmo"⟩]
        [⟨((2 ^ 255 : Nat) : Int), ascii "uatom"⟩, ⟨((2 ^ 255 : Nat) : Int), ascii "uusdc"⟩] =
      .error .intOverflow ∧
    withinRange [⟨((2 ^ 256 - 1 : Nat) : Int), ascii "uatom"⟩] 0 = true ∧
    totalLoop [⟨((2 ^ 256 - 1 : Nat) : Int), ascii "uatom"⟩] 0 =
      .ok ((2 ^ 256 - 1 : Nat) : Int) ∧
    calculateCollateralizationRatio [⟨1, ascii "uosmo"⟩]
        [⟨((2 ^ 256 - 1 : Nat) : Int), ascii "uatom"⟩] =
      .error .intOverflow := by
  refine ⟨by decide, by decide, by decide, by decide, by decide⟩

/-- C3 (amended): for coin lists whose amounts and running totals stay within the 256 bits of
`sdkmath.Int`, with priced debt total `D > 0` and priced collateral total `C`, and with the
mantissa of the quotient `C/D` (that is `C * 10^36` divided by `D`, truncated, then chopped to
18 decimals with rounding half to even) within the 315 bits of a `LegacyDec`, the call
returns `(C/D)/100` in decimal arithmetic: `C` and `D` promoted by `LegacyNewDecFromInt`, one
`Quo` by the debt giving `q` with that mantissa, one `Quo` of `q` by `LegacyNewDec(100)` giving
the result `r`, neither of which panics. The mantissa of `r` is that of `q` times `10^16`,
chopped the same way. For `D = 100` and `C = 500` the value is 0.05 (mantissa `5 * 10^16`). -/
theorem C3_ratio_of_positive_debt (debtCoins collateralCoins : List Coin)
    (hdebt : withinRange debtCoins 0 = true)
    (hcoll : withinRange collateralCoins 0 = true)
    (hpos : 0 < pricedTotal debtCoins)
    (hfit : (sdkmath.chopPrecisionAndRound
      ((pricedTotal collateralCoins * 10 ^ 36).tdiv (pricedTotal debtCoins))).natAbs
        < 2 ^ 315) :
    ∃ q r : sdkmath.LegacyDec,
      (sdkmath.LegacyNewDecFromInt (pricedTotal collateralCoins)).Quo
        (sdkmath.LegacyNewDecFromInt (pricedTotal debtCoins)) = .ok q ∧
      q.Quo (sdkmath.LegacyNewDec 100) = .ok r ∧
      calculateCollateralizationRatio debtCoins collateralCoins = .ok ⟨r, 2⟩ ∧
      q.i = sdkmath.chopPrecisionAndRound
        ((pricedTotal collateralCoins * 10 ^ 36).tdiv (pricedTotal debtCoins)) ∧
      r.i = sdkmath.chopPrecisionAndRound (q.i * 10 ^ 16) ∧
      (pricedTotal debtCoins = 100 → pricedTotal collateralCoins = 500 →
        r = ⟨50000000000000000⟩) := by
  have hq := sdkmath.Quo_FromInt_ok (pricedTotal collateralCoins) (pricedTotal debtCoins)
    (ne_of_gt hpos) (by rw [sdkmath.tdiv_promoted _ _ hpos]; exact hfit)
  rw [sdkmath.tdiv_promoted _ _ hpos] at hq
  have hr := sdkmath.Quo_hundred_ok
    ⟨sdkmath.chopPrecisionAndRound
      ((pricedTotal collateralCoins * 10 ^ 36).tdiv (pricedTotal debtCoins))⟩ hfit
  rw [sdkmath.tdiv_hundred] at hr
  refine ⟨_, _, hq, hr, ?_, rfl, rfl, ?_⟩
  · unfold calculateCollateralizationRatio
    rw [totalLoop_of_withinRange _ _ hdebt, totalLoop_of_withinRange _ _ hcoll]
    simp only [zero_add]
    rw [if_neg (ne_of_gt hpos), hq]
    simp only
    rw [hr]
  · intro h100 h500
    rw [h100, h500]
    decide

theorem C3_ratio_of_positive_debt_witness :
    0 < pricedTotal [⟨40, ascii "uosmo"⟩, ⟨60, ascii "uusdc"⟩] ∧
    (sdkmath.chopPrecisionAndRound
      ((pricedTotal [⟨200, ascii "uosmo"⟩, ⟨300, ascii "uatom"⟩] * 10 ^ 36).tdiv
        (pricedTotal [⟨40, ascii "uosmo"⟩, ⟨60, ascii "uusdc"⟩]))).natAbs < 2 ^ 315 ∧
    calculateCollateralizationRatio [⟨40, ascii "uosmo"⟩, ⟨60, ascii "uusdc"⟩]
      [⟨200, ascii "uosmo"⟩, ⟨300, ascii "uatom"⟩] = .ok ⟨⟨50000000000000000⟩, 2⟩ ∧
    ∃ q r : sdkmath.LegacyDec,
      (sdkmath.LegacyNewDecFromInt
          (pricedTotal [⟨200, ascii "uosmo"⟩, ⟨300, ascii "uatom"⟩])).Quo
        (sdkmath.LegacyNewDecFromInt
          (pricedTotal [⟨40, ascii "uosmo"⟩, ⟨60, ascii "uusdc"⟩])) = .ok q ∧
      q.Quo (sdkmath.LegacyNewDec 100) = .ok r ∧
      calculateCollateralizationRatio [⟨40, ascii "uosmo"⟩, ⟨60, ascii "uusdc"⟩]
        [⟨200, ascii "uosmo"⟩, ⟨300, ascii "uatom"⟩] = .ok ⟨r, 2⟩ ∧
      q.i = sdkmath.chopPrecisionAndRound
        ((pricedTotal [⟨200, ascii "uosmo"⟩, ⟨300, ascii "uatom"⟩] * 10 ^ 36).tdiv
          (pricedTotal [⟨40, ascii "uosmo"⟩, ⟨60, ascii "uusdc"⟩])) ∧
      r.i = sdkmath.chopPrecisionAndRound (q.i * 10 ^ 16) ∧
      (pricedTotal [⟨40, ascii "uosmo"⟩, ⟨60, ascii "uusdc"⟩] = 100 →
        pricedTotal [⟨200, ascii "uosmo"⟩, ⟨300, ascii "uatom"⟩] = 500 →
        r = ⟨50000000000000000⟩) :=
  ⟨by decide, by decide, by decide,
    C3_ratio_of_positive_debt [⟨40, ascii "uosmo"⟩, ⟨60, ascii "uusdc"⟩]
      [⟨200, ascii "uosmo"⟩, ⟨300, ascii "uatom"⟩] (by decide) (by decide) (by decide)
      (by decide)⟩

/-- C4 (as stated, refuted): with debts that cancel to zero and the collateral amounts
`2^256 - 1` and `1`, the call does not return 0: the collateral loop, which runs before the
zero test, panics with "Int overflow". -/
theorem C4_zero_debt_collateral_overflow_panics :
    pricedTotal [⟨5, ascii "uosmo"⟩, ⟨-5, ascii "uosmo"⟩] = 0 ∧
    calculateCollateralizationRatio [⟨5, ascii "uosmo"⟩, ⟨-5, ascii "uosmo"⟩]
        [⟨((2 ^ 256 - 1 : Nat) : Int), ascii "uatom"⟩, ⟨1, ascii "uatom"⟩] =
      .error .intOverflow := by
  constructor
  · decide
  · decide

/-- C4 (amended): for coin lists whose amounts and running totals stay within the 256 bits of
`sdkmath.Int`, a priced debt total of zero makes the call return the decimal 0 with no `Quo`
made, whatever the collateral; a `Quo` by the promoted debt total would have panicked. -/
theorem C4_zero_debt_gives_zero (debtCoins collateralCoins : List Coin)
    (hdebt : withinRange debtCoins 0 = true)
    (hcoll : withinRange collateralCoins 0 = true)
    (hzero : pricedTotal debtCoins = 0) :
    calculateCollateralizationRatio debtCoins collateralCoins = .ok ⟨⟨0⟩, 0⟩ ∧
    (sdkmath.LegacyNewDecFromInt (pricedTotal collateralCoins)).Quo
      (sdkmath.LegacyNewDecFromInt (pricedTotal debtCoins)) = .error .divisionByZero := by
  constructor
  · unfold calculateCollateralizationRatio
    rw [totalLoop_of_withinRange _ _ hdebt, totalLoop_of_withinRange _ _ hcoll]
    simp only [zero_add]
    rw [if_pos hzero]
    rfl
  · rw [hzero]
    rfl

theorem C4_zero_debt_gives_zero_witness :
    pricedTotal [⟨7, ascii "uosmo"⟩, ⟨-7, ascii "uosmo"⟩] = 0 ∧
    (calculateCollateralizationRatio [⟨7, ascii "uosmo"⟩, ⟨-7, ascii "uosmo"⟩]
        [⟨((2 ^ 255 : Nat) : Int), ascii "uatom"⟩] = .ok ⟨⟨0⟩, 0⟩ ∧
      (sdkmath.LegacyNewDecFromInt
          (pricedTotal [⟨((2 ^ 255 : Nat) : Int), ascii "uatom"⟩])).Quo
        (sdkmath.LegacyNewDecFromInt
          (pricedTotal [⟨7, ascii "uosmo"⟩, ⟨-7, ascii "uosmo"⟩])) =
        .error .divisionByZero) :=
  ⟨by decide,
    C4_zero_debt_gives_zero [⟨7, ascii "uosmo"⟩, ⟨-7, ascii "uosmo"⟩]
      [⟨((2 ^ 255 : Nat) : Int), ascii "uatom"⟩] (by decide) (by decide) (by decide)⟩

/-- C9 (failing input): for the debt list holding one coin of amount 0 the priced total debt
is zero and `calculateCollateralizationRatio` returns its zero placeholder, yet `main`, which
tests `len(debtCoins) == 0`, prints the placeholder as a ratio and not the N/A line. -/
theorem C9_zero_amount_debt_printed_as_ratio :
    pricedTotal [⟨0, ascii "uosmo"⟩] = 0 ∧
    calculateCollateralizationRatio [⟨0, ascii "uosmo"⟩] [⟨500, ascii "uatom"⟩] =
      .ok ⟨⟨0⟩, 0⟩ ∧
    mainRatioLine [⟨0, ascii "uosmo"⟩] [⟨500, ascii "uatom"⟩] = .ok (.ratio ⟨0⟩) ∧
    mainRatioLine [] [⟨500, ascii "uatom"⟩] = .ok .notApplicable := by
  refine ⟨by decide, by decide, by decide, by decide⟩

end LiquidationRB
